import Mathlib

/-!
Verification of the Qrack CPU state-vector engine (`src/qengine/state.cpp`)
and the circuit-layer gate type (`QCircuitGate`), shallowly embedded over
exact rational complex arithmetic.

Modelling conventions:
* an amplitude (C++ `complex`) is a pair of rationals `Cq` (exact arithmetic
  in place of floating point);
* the state vector is `Option (ℕ → Cq)`: `none` is the distinguished
  "zero-amplitude" (deallocated) state, `some sv` the allocated buffer;
* `bitCapIntOcl` indices are `ℕ` with the `&&& ||| ^^^ <<< >>>` bit
  operations;
* C++ exceptions are the `Except QrackErr` monad: a returned `.error` is a
  synchronously thrown exception, before any state mutation;
* the scalar (non `ENABLE_COMPLEX_X2`) variant of `Apply2x2`
  (state.cpp lines 472-641) is the one embedded — the two variants implement
  the same selection logic;
* `sqrt` does not exist on ℚ: wherever the source computes `sqrt(runningNorm)`
  (a single expression, state.cpp line 542), the embedding takes the value of
  that square root as an explicit argument `sqrtRunningNorm`, and theorems
  characterize it by `sqrtRunningNorm * sqrtRunningNorm = runningNorm`;
* the worker count (`GetConcurrencyLevel`) is modelled as one worker, and the
  parallel iterations of `par_for` / `par_for_mask` as sequential folds over
  the same index lists (the spec guarantees the kernels write disjoint
  index pairs, so the schedule does not matter);
* the dispatcher (`Dispatch` / `Finish` / `Dump`) is modelled as immediate
  synchronous execution.
-/

namespace Qrack

/-- Exact rational stand-in for the C++ `complex` amplitude type. -/
structure Cq where
  re : ℚ
  im : ℚ
deriving DecidableEq

instance : Zero Cq := ⟨⟨0, 0⟩⟩

instance : One Cq := ⟨⟨1, 0⟩⟩

instance : Add Cq := ⟨fun a b => ⟨a.re + b.re, a.im + b.im⟩⟩

instance : Mul Cq := ⟨fun a b => ⟨a.re * b.re - a.im * b.im, a.re * b.im + a.im * b.re⟩⟩

instance : Neg Cq := ⟨fun a => ⟨-a.re, -a.im⟩⟩

/-- Structural natural power of an amplitude (kept structural so that concrete
witnesses evaluate inside the kernel). -/
def cqPow (z : Cq) : ℕ → Cq
  | 0 => 1
  | n + 1 => cqPow z n * z

instance : CommRing Cq where
  add_assoc := by
    rintro ⟨a, b⟩ ⟨c, d⟩ ⟨e, f⟩
    show Cq.mk (a + c + e) (b + d + f) = Cq.mk (a + (c + e)) (b + (d + f))
    rw [Cq.mk.injEq]
    constructor <;> ring
  zero_add := by
    rintro ⟨a, b⟩
    show Cq.mk (0 + a) (0 + b) = Cq.mk a b
    rw [Cq.mk.injEq]
    constructor <;> ring
  add_zero := by
    rintro ⟨a, b⟩
    show Cq.mk (a + 0) (b + 0) = Cq.mk a b
    rw [Cq.mk.injEq]
    constructor <;> ring
  add_comm := by
    rintro ⟨a, b⟩ ⟨c, d⟩
    show Cq.mk (a + c) (b + d) = Cq.mk (c + a) (d + b)
    rw [Cq.mk.injEq]
    constructor <;> ring
  mul_assoc := by
    rintro ⟨a, b⟩ ⟨c, d⟩ ⟨e, f⟩
    show Cq.mk ((a * c - b * d) * e - (a * d + b * c) * f)
               ((a * c - b * d) * f + (a * d + b * c) * e)
       = Cq.mk (a * (c * e - d * f) - b * (c * f + d * e))
               (a * (c * f + d * e) + b * (c * e - d * f))
    rw [Cq.mk.injEq]
    constructor <;> ring
  one_mul := by
    rintro ⟨a, b⟩
    show Cq.mk (1 * a - 0 * b) (1 * b + 0 * a) = Cq.mk a b
    rw [Cq.mk.injEq]
    constructor <;> ring
  mul_one := by
    rintro ⟨a, b⟩
    show Cq.mk (a * 1 - b * 0) (a * 0 + b * 1) = Cq.mk a b
    rw [Cq.mk.injEq]
    constructor <;> ring
  left_distrib := by
    rintro ⟨a, b⟩ ⟨c, d⟩ ⟨e, f⟩
    show Cq.mk (a * (c + e) - b * (d + f)) (a * (d + f) + b * (c + e))
       = Cq.mk ((a * c - b * d) + (a * e - b * f)) ((a * d + b * c) + (a * f + b * e))
    rw [Cq.mk.injEq]
    constructor <;> ring
  right_distrib := by
    rintro ⟨a, b⟩ ⟨c, d⟩ ⟨e, f⟩
    show Cq.mk ((a + c) * e - (b + d) * f) ((a + c) * f + (b + d) * e)
       = Cq.mk ((a * e - b * f) + (c * e - d * f)) ((a * f + b * e) + (c * f + d * e))
    rw [Cq.mk.injEq]
    constructor <;> ring
  zero_mul := by
    rintro ⟨a, b⟩
    show Cq.mk (0 * a - 0 * b) (0 * b + 0 * a) = Cq.mk 0 0
    rw [Cq.mk.injEq]
    constructor <;> ring
  mul_zero := by
    rintro ⟨a, b⟩
    show Cq.mk (a * 0 - b * 0) (a * 0 + b * 0) = Cq.mk 0 0
    rw [Cq.mk.injEq]
    constructor <;> ring
  mul_comm := by
    rintro ⟨a, b⟩ ⟨c, d⟩
    show Cq.mk (a * c - b * d) (a * d + b * c) = Cq.mk (c * a - d * b) (c * b + d * a)
    rw [Cq.mk.injEq]
    constructor <;> ring
  neg_add_cancel := by
    rintro ⟨a, b⟩
    show Cq.mk (-a + a) (-b + b) = Cq.mk 0 0
    rw [Cq.mk.injEq]
    constructor <;> ring
  nsmul := nsmulRec
  zsmul := zsmulRec
  npow := fun n z => cqPow z n
  npow_zero := fun _ => rfl
  npow_succ := fun _ _ => rfl

/-- C++ `norm(z)`: the squared magnitude of an amplitude. -/
def Cq.normSq (a : Cq) : ℚ := a.re * a.re + a.im * a.im

/-- C++ `conj(z)`. -/
def Cq.conj (a : Cq) : Cq := ⟨a.re, -a.im⟩

/-- Multiplication of an amplitude by a real (`real1`) scalar, as in
`nrm * (mtrx0 * Y0)`. -/
def Cq.smul (c : ℚ) (a : Cq) : Cq := ⟨c * a.re, c * a.im⟩

/-- Division of an amplitude by a real scalar, as in `phaseFac / nrm`. -/
def Cq.divR (a : Cq) (c : ℚ) : Cq := ⟨a.re / c, a.im / c⟩

/-- Row-major 2x2 complex matrix: `m0 = M[0][0]`, `m1 = M[0][1]`,
`m2 = M[1][0]`, `m3 = M[1][1]`, following the `mtrx0..mtrx3` naming of
state.cpp lines 551-554. -/
structure Mtrx2 where
  m0 : Cq
  m1 : Cq
  m2 : Cq
  m3 : Cq
deriving DecidableEq

/-- Modelled from the spec: `FP_NORM_EPSILON` (the header defining it is not
part of the sources) is the positive amplitude-norm floor used by
`IS_NORM_0` and the collapse checks; a fixed small positive rational stands
in for it, and no proof depends on the particular value beyond its sign. -/
def FP_NORM_EPSILON : ℚ := 1 / 2 ^ 46

/-- Modelled from the spec: `REAL1_EPSILON` (the header defining it is not
part of the sources) is the machine epsilon of the `real1` floating-point
type, a positive constant; a fixed small positive rational stands in for it. -/
def REAL1_EPSILON : ℚ := 1 / 2 ^ 23

/-- Modelled from the spec: `REAL1_DEFAULT_ARG` (the header defining it is
not part of the sources) is the negative sentinel value that marks
`runningNorm` as "unknown". -/
def REAL1_DEFAULT_ARG : ℚ := -999

/-- C++ `IS_NORM_0(z)`: the norm of `z` is at or below the floor. -/
def IS_NORM_0 (c : Cq) : Bool := decide (Cq.normSq c ≤ FP_NORM_EPSILON)

/-- The error values the embedded operations can throw
(`std::invalid_argument` in the source), plus `nullRead`, the model's marker
for a dereference of the unallocated (`nullptr`) state vector — behaviour
that in C++ is a crash, not an exception. -/
inductive QrackErr where
  | invalidOffsets : QrackErr
  | qPowOutOfBounds : QrackErr
  | duplicateQPow : QrackErr
  | maskOutOfBounds : QrackErr
  | permOutOfBounds : QrackErr
  | nullRead : QrackErr
deriving DecidableEq

/-- The engine state: the fields of `QEngineCPU` (and its bases) that the
embedded operations touch. `stateVec = none` is the zero-amplitude state. -/
structure QEngineCPU where
  qubitCount : ℕ
  stateVec : Option (ℕ → Cq)
  runningNorm : ℚ
  doNormalize : Bool
  randGlobalPhase : Bool
  amplitudeFloor : ℚ

/-- C++ `maxQPowerOcl = 2^qubitCount`. -/
def QEngineCPU.maxQPowerOcl (e : QEngineCPU) : ℕ := 2 ^ e.qubitCount

/-- Read of one amplitude; the zero-amplitude state reads as zero. -/
def readAmp (e : QEngineCPU) (i : ℕ) : Cq :=
  match e.stateVec with
  | none => 0
  | some sv => sv i

/-- C++ `stateVec->write(i, a)`. -/
def write (sv : ℕ → Cq) (i : ℕ) (a : Cq) : ℕ → Cq :=
  fun k => if k = i then a else sv k

/-- C++ `stateVec->write2(i, a, j, b)`: two writes, the second one last. -/
def write2 (sv : ℕ → Cq) (i : ℕ) (a : Cq) (j : ℕ) (b : Cq) : ℕ → Cq :=
  fun k => if k = j then b else if k = i then a else sv k

/-- Modelled from the spec: `ZeroAmplitudes` (defined in a header that is not
part of the sources) deallocates the buffer and leaves the known running
norm 0. -/
def zeroAmplitudes (e : QEngineCPU) : QEngineCPU :=
  { e with stateVec := none, runningNorm := 0 }

/-- Amplitude at index `i` of the engine an `Except` result carries. -/
def resRead (r : Except QrackErr QEngineCPU) (i : ℕ) : Option Cq :=
  match r with
  | .ok e => some (readAmp e i)
  | .error _ => none

/-- Running norm of the engine an `Except` result carries. -/
def resRunningNorm (r : Except QrackErr QEngineCPU) : Option ℚ :=
  match r with
  | .ok e => some e.runningNorm
  | .error _ => none

/-! ### Apply2x2 (state.cpp lines 513-641, scalar variant) -/

/-- Diagonal kernel of `Apply2x2` (state.cpp lines 562-566): when
`IS_NORM_0(mtrx1) && IS_NORM_0(mtrx2)`, write `mtrx0 * Y0` and `mtrx3 * Y1`. -/
def apply2x2FnDiag (m : Mtrx2) (a1 a2 : Cq) : Cq × Cq :=
  (m.m0 * a1, m.m3 * a2)

/-- Anti-diagonal kernel of `Apply2x2` (state.cpp lines 567-571): when
`IS_NORM_0(mtrx0) && IS_NORM_0(mtrx3)`, write `mtrx1 * Y1` and `mtrx2 * Y0`. -/
def apply2x2FnAntiDiag (m : Mtrx2) (a1 a2 : Cq) : Cq × Cq :=
  (m.m1 * a2, m.m2 * a1)

/-- Generic kernel of `Apply2x2` (state.cpp lines 572-578): the full 2x2
matrix-vector multiply. -/
def apply2x2FnGeneric (m : Mtrx2) (a1 a2 : Cq) : Cq × Cq :=
  (m.m0 * a1 + m.m1 * a2, m.m2 * a1 + m.m3 * a2)

/-- Kernel selection of `Apply2x2` by matrix structure — the branch tree
repeated at state.cpp lines 562-571, 582-585, 591-594, 601-604, 610-613. -/
def apply2x2Select (m : Mtrx2) (a1 a2 : Cq) : Cq × Cq :=
  if IS_NORM_0 m.m1 && IS_NORM_0 m.m2 then apply2x2FnDiag m a1 a2
  else if IS_NORM_0 m.m0 && IS_NORM_0 m.m3 then apply2x2FnAntiDiag m a1 a2
  else apply2x2FnGeneric m a1 a2

/-- Scaling of the written amplitude pair by the real factor `nrm`. -/
def scalePair (c : ℚ) (p : Cq × Cq) : Cq × Cq :=
  (Cq.smul c p.1, Cq.smul c p.2)

/-- The amplitude-floor post-processing the claim describes: when the floor
is positive, a written amplitude whose norm falls below it is zeroed
(`NORM_THRESH_KERNEL`); otherwise the pair is written as is. -/
def threshPair (norm_thresh : ℚ) (p : Cq × Cq) : Cq × Cq :=
  if 0 < norm_thresh then
    (if Cq.normSq p.1 < norm_thresh then 0 else p.1,
     if Cq.normSq p.2 < norm_thresh then 0 else p.2)
  else p

/-- One `Apply2x2` kernel invocation at one iterated index: the selected,
optionally `nrm`-scaled multiply, with the `NORM_THRESH_KERNEL` /
`NORM_CALC_KERNEL` post-processing (state.cpp lines 472-511, 561-618).
Returns the written amplitude pair and the `rngNrm` accumulator value the
iteration leaves in the worker's slot (`+=` for the threshold kernel,
plain `=` for the calc kernel, exactly as in the macros). -/
def apply2x2Kernel (m : Mtrx2) (doCalcNorm : Bool) (nrm norm_thresh : ℚ)
    (a1 a2 : Cq) : (Cq × Cq) × ℚ :=
  if !doCalcNorm then
    (apply2x2Select m a1 a2, 0)
  else if 0 < norm_thresh then
    let q := if REAL1_EPSILON < |1 - nrm| then scalePair nrm (apply2x2Select m a1 a2)
             else apply2x2Select m a1 a2
    ((if Cq.normSq q.1 < norm_thresh then 0 else q.1,
      if Cq.normSq q.2 < norm_thresh then 0 else q.2),
     (if Cq.normSq q.1 < norm_thresh then 0 else Cq.normSq q.1)
       + (if Cq.normSq q.2 < norm_thresh then 0 else Cq.normSq q.2))
  else
    let q := if REAL1_EPSILON < |1 - nrm| then scalePair nrm (apply2x2Select m a1 a2)
             else apply2x2Select m a1 a2
    (q, Cq.normSq q.1 + Cq.normSq q.2)

/-- Validation loop over `qPowsSorted` (state.cpp lines 523-532): each power
must lie inside the allocated bounds and no two adjacent entries may be
equal; `prev` carries `qPowsSorted[i - 1]`. -/
def checkQPows (maxQ : ℕ) : List ℕ → Option ℕ → Except QrackErr Unit
  | [], _ => .ok ()
  | p :: rest, prev =>
    if maxQ ≤ p then .error .qPowOutOfBounds
    else if prev = some p then .error .duplicateQPow
    else checkQPows maxQ rest (some p)

/-- Bit reconstruction of `par_for_mask`: re-insert zero bits at each held
power, ascending — the `iLow / iHigh` loop that also appears verbatim in
`UniformlyControlledSingleBit` (state.cpp lines 800-807). -/
def insertZeroBitsGo : List ℕ → ℕ → ℕ → ℕ
  | [], i, iHigh => i ||| iHigh
  | p :: rest, i, iHigh =>
    let iLow := iHigh &&& (p - 1)
    insertZeroBitsGo rest (i ||| iLow) ((iHigh ^^^ iLow) <<< 1)

/-- Modelled from the spec: `par_for_mask` (its body lives outside the
sources) enumerates the complement of the held bits by re-inserting zero
bits at the sorted one-bit masks. -/
def insertZeroBits (pows : List ℕ) (k : ℕ) : ℕ :=
  insertZeroBitsGo pows 0 k

/-- C++ `doApplyNorm = doNormalize && (bitCount == 1U) && (runningNorm > ZERO_R1)`
(state.cpp line 539). -/
def apply2x2DoApplyNorm (e : QEngineCPU) (bitCount : ℕ) : Bool :=
  e.doNormalize && (bitCount == 1) && decide (0 < e.runningNorm)

/-- C++ `nrm = doApplyNorm ? ONE_R1 / sqrt(runningNorm) : ONE_R1`
(state.cpp line 542); `sqrtRunningNorm` stands for `sqrt(runningNorm)`. -/
def apply2x2NrmVal (e : QEngineCPU) (bitCount : ℕ) (sqrtRunningNorm : ℚ) : ℚ :=
  if apply2x2DoApplyNorm e bitCount then 1 / sqrtRunningNorm else 1

/-- One iteration of the `par_for_mask` loop inside `Apply2x2`: read the
amplitude pair at `lcv + offset1`, `lcv + offset2`, run the kernel, write
the pair back, and update the accumulator (`+=` under the threshold kernel,
assignment under the calc kernel). -/
def apply2x2Step (m : Mtrx2) (doCalcNorm : Bool) (nrm norm_thresh : ℚ)
    (offset1 offset2 : ℕ) (acc : (ℕ → Cq) × ℚ) (lcv : ℕ) : (ℕ → Cq) × ℚ :=
  let r := apply2x2Kernel m doCalcNorm nrm norm_thresh
    (acc.1 (lcv + offset1)) (acc.1 (lcv + offset2))
  (write2 acc.1 (lcv + offset1) r.1.1 (lcv + offset2) r.1.2,
   if 0 < norm_thresh then acc.2 + r.2 else r.2)

/-- `QEngineCPU::Apply2x2` (state.cpp lines 513-641): zero-amplitude
short-circuit, argument validation, normalization policy, kernel selection,
masked iteration, and the final running-norm update with collapse check.
`sqrtRunningNorm` stands for the value of `sqrt(runningNorm)` computed at
line 542. -/
def apply2x2 (e : QEngineCPU) (offset1 offset2 : ℕ) (m : Mtrx2)
    (qPowsSorted : List ℕ) (doCalcNorm : Bool) (nrm_thresh : ℚ)
    (sqrtRunningNorm : ℚ) : Except QrackErr QEngineCPU :=
  match e.stateVec with
  | none => .ok e
  | some sv =>
    if e.maxQPowerOcl ≤ offset1 ∨ e.maxQPowerOcl ≤ offset2 then
      .error .invalidOffsets
    else match checkQPows e.maxQPowerOcl qPowsSorted none with
    | .error er => .error er
    | .ok _ =>
      let bitCount := qPowsSorted.length
      let doApplyNorm := apply2x2DoApplyNorm e bitCount
      let doCalcNorm2 := doCalcNorm && (doApplyNorm || decide (e.runningNorm ≤ 0))
      let nrm := apply2x2NrmVal e bitCount sqrtRunningNorm
      let norm_thresh := if nrm_thresh < 0 then e.amplitudeFloor else nrm_thresh
      let res := ((List.range (e.maxQPowerOcl >>> bitCount)).map
          (insertZeroBits qPowsSorted)).foldl
        (apply2x2Step m doCalcNorm2 nrm norm_thresh offset1 offset2) (sv, 0)
      if !doCalcNorm2 then
        .ok { e with stateVec := some res.1,
                     runningNorm := if doApplyNorm then 1 else e.runningNorm }
      else if res.2 ≤ FP_NORM_EPSILON then
        .ok (zeroAmplitudes { e with stateVec := some res.1 })
      else
        .ok { e with stateVec := some res.1, runningNorm := res.2 }

/-! ### SetPermutation and SetAmplitude (state.cpp lines 197-247) -/

/-- `QEngineCPU::SetPermutation` (state.cpp lines 222-247). `phaseFac = none`
models the `CMPLX_DEFAULT_ARG` sentinel; `randPhase` stands for the random
unit phase drawn at lines 235-236, and `absPhaseFac` for `abs(phaseFac)`
(line 242), which theorems characterize by its square. -/
def setPermutation (e : QEngineCPU) (perm : ℕ) (phaseFac : Option Cq)
    (absPhaseFac : ℚ) (randPhase : Cq) : QEngineCPU :=
  let cleared : ℕ → Cq := fun _ => 0
  match phaseFac with
  | none =>
    let phase := if e.randGlobalPhase then randPhase else 1
    { e with stateVec := some (write cleared perm phase), runningNorm := 1 }
  | some pf =>
    { e with stateVec := some (write cleared perm (Cq.divR pf absPhaseFac)),
             runningNorm := 1 }

/-- `QEngineCPU::SetAmplitude` (state.cpp lines 197-220). The read
`stateVec->read(perm)` at line 211 is performed before the line-214 null
check, so on the zero-amplitude state the model returns the `.nullRead`
marker where the C++ dereferences a null pointer. -/
def setAmplitude (e : QEngineCPU) (perm : ℕ) (amp : Cq) :
    Except QrackErr QEngineCPU :=
  if e.maxQPowerOcl ≤ perm then .error .permOutOfBounds
  else if e.stateVec.isNone && decide (Cq.normSq amp = 0) then .ok e
  else if e.runningNorm ≠ REAL1_DEFAULT_ARG then
    match e.stateVec with
    | none => .error .nullRead
    | some sv =>
      .ok { e with
        stateVec := some (write sv perm amp),
        runningNorm := e.runningNorm + (Cq.normSq amp - Cq.normSq (sv perm)) }
  else
    match e.stateVec with
    | none => .ok { e with stateVec := some (write (fun _ => 0) perm amp) }
    | some sv => .ok { e with stateVec := some (write sv perm amp) }

/-! ### XMask (state.cpp lines 644-682) -/

/-- C++ `isPowerOfTwo(x) = x && !(x & (x - 1))` (from the bit-twiddling
helpers the source includes). -/
def isPowerOfTwo (n : ℕ) : Bool := n != 0 && (n &&& (n - 1)) == 0

/-- Modelled from the spec: the single-qubit X gate (dispatched through
`QInterface::X`, outside the sources) exchanges the amplitudes of every
index pair that differs exactly in the target bit. -/
def xGate (e : QEngineCPU) (t : ℕ) : QEngineCPU :=
  match e.stateVec with
  | none => e
  | some sv => { e with stateVec := some (fun i => sv (i ^^^ 2 ^ t)) }

/-- One iteration of the `XMask` loop (state.cpp lines 663-678): skip when
`setInt < resetInt`, otherwise swap the amplitudes at
`setInt | otherRes` and `resetInt | otherRes`. -/
def xMaskStep (maxQPowerOcl mask : ℕ) (sv : ℕ → Cq) (lcv : ℕ) : ℕ → Cq :=
  let otherMask := (maxQPowerOcl - 1) ^^^ mask
  let otherRes := lcv &&& otherMask
  let setInt := lcv &&& mask
  let resetInt := setInt ^^^ mask
  if setInt < resetInt then sv
  else
    let setIdx := setInt ||| otherRes
    let resetIdx := resetInt ||| otherRes
    fun i => if i = resetIdx then sv setIdx else if i = setIdx then sv resetIdx else sv i

/-- `QEngineCPU::XMask` (state.cpp lines 644-682): bounds check,
zero-amplitude skip, the single-bit delegation to `X(log2(mask))`, and the
general swap loop. -/
def xMask (e : QEngineCPU) (mask : ℕ) : Except QrackErr QEngineCPU :=
  if e.maxQPowerOcl ≤ mask then .error .maskOutOfBounds
  else match e.stateVec with
  | none => .ok e
  | some sv =>
    if mask = 0 then .ok e
    else if isPowerOfTwo mask then .ok (xGate e (Nat.log2 mask))
    else
      let sv2 := (List.range e.maxQPowerOcl).foldl (xMaskStep e.maxQPowerOcl mask) sv
      .ok { e with stateVec := some sv2 }

/-! ### PhaseRootNMask (state.cpp lines 727-759) -/

/-- Structural popcount with explicit fuel, so that it evaluates inside the
kernel; `popCountOcl n = popCountAux n n`. -/
def popCountAux : ℕ → ℕ → ℕ
  | 0, _ => 0
  | fuel + 1, n => if n = 0 then 0 else n % 2 + popCountAux fuel (n / 2)

/-- C++ `popCountOcl` (the population-count intrinsic). -/
def popCountOcl (n : ℕ) : ℕ := popCountAux n n

/-- Modelled from the spec: `ZMask(mask)` (dispatched through `QInterface`,
outside the sources) multiplies the amplitude at `lcv` by
`(-1)^popcount(lcv AND mask)`. -/
def zMask (e : QEngineCPU) (mask : ℕ) : QEngineCPU :=
  match e.stateVec with
  | none => e
  | some sv =>
    let sv2 : ℕ → Cq := fun lcv => (-1 : Cq) ^ popCountOcl (lcv &&& mask) * sv lcv
    { e with stateVec := some sv2 }

/-- Modelled from the spec: `Phase(topLeft, bottomRight, qubit)` (dispatched
through `QInterface`, outside the sources) multiplies each amplitude by
`topLeft` when the target bit is 0 and by `bottomRight` when it is 1. -/
def phaseGate (e : QEngineCPU) (topLeft bottomRight : Cq) (t : ℕ) : QEngineCPU :=
  match e.stateVec with
  | none => e
  | some sv =>
    let sv2 : ℕ → Cq := fun i => (if i &&& 2 ^ t = 0 then topLeft else bottomRight) * sv i
    { e with stateVec := some sv2 }

/-- `QEngineCPU::PhaseRootNMask` (state.cpp lines 727-759). The complex
argument `z` stands for `polar(1, radians)` with `radians = -pi / 2^(n-1)`
(line 743); the general loop multiplies by `z ^ nPhaseSteps`, which is the
exact value of `polar(1, radians * nPhaseSteps)` (line 755), and theorems
characterize `z` by `z ^ 2^n = 1`. -/
def phaseRootNMask (e : QEngineCPU) (n mask : ℕ) (z : Cq) :
    Except QrackErr QEngineCPU :=
  if e.maxQPowerOcl ≤ mask then .error .maskOutOfBounds
  else match e.stateVec with
  | none => .ok e
  | some sv =>
    if n = 0 ∨ mask = 0 then .ok e
    else if n = 1 then .ok (zMask e mask)
    else if isPowerOfTwo mask then .ok (phaseGate e 1 z (Nat.log2 mask))
    else .ok { e with stateVec := some (fun lcv =>
      let nPhaseSteps := popCountOcl (lcv &&& mask) % 2 ^ n
      if nPhaseSteps ≠ 0 then z ^ nPhaseSteps * sv lcv else sv lcv) }

/-- The per-index multiplier `PhaseRootNMask` applies: `(-1)^popcount` on the
`n = 1` (ZMask) path and `z^(popcount mod 2^n)` otherwise. -/
def prnMult (n mask lcv : ℕ) (z : Cq) : Cq :=
  if n = 1 then (-1 : Cq) ^ popCountOcl (lcv &&& mask)
  else z ^ (popCountOcl (lcv &&& mask) % 2 ^ n)

/-- Iterated application of `PhaseRootNMask` with fixed arguments. -/
def phaseRootNIter (n mask : ℕ) (z : Cq) : ℕ → QEngineCPU → Except QrackErr QEngineCPU
  | 0, e => .ok e
  | k + 1, e =>
    match phaseRootNIter n mask z k e with
    | .ok e2 => phaseRootNMask e2 n mask z
    | .error er => .error er

/-! ### SumSqrDiff and UpdateRunningNorm (state.cpp lines 1601-1657, 1731-1749) -/

/-- C++ `clampProb`: clamp a probability-like value into [0, 1]. -/
def clampProb (p : ℚ) : ℚ := if p < 0 then 0 else if 1 < p then 1 else p

/-- Modelled from the spec: `par_norm` (its body lives outside the sources)
sums the squared magnitudes, discarding contributions below the floor when
the floor is positive. -/
def parNorm (maxQ : ℕ) (sv : ℕ → Cq) (norm_thresh : ℚ) : ℚ :=
  if norm_thresh ≤ 0 then
    Finset.sum (Finset.range maxQ) fun i => Cq.normSq (sv i)
  else
    Finset.sum (Finset.range maxQ) fun i =>
      if Cq.normSq (sv i) < norm_thresh then 0 else Cq.normSq (sv i)

/-- `QEngineCPU::UpdateRunningNorm` (state.cpp lines 1731-1749). -/
def updateRunningNorm (e : QEngineCPU) (norm_thresh : ℚ) : QEngineCPU :=
  match e.stateVec with
  | none => { e with runningNorm := 0 }
  | some sv =>
    let nt := if norm_thresh < 0 then e.amplitudeFloor else norm_thresh
    let rn := parNorm e.maxQPowerOcl sv nt
    if rn ≤ FP_NORM_EPSILON then zeroAmplitudes { e with runningNorm := rn }
    else { e with runningNorm := rn }

/-- `QEngineCPU::SumSqrDiff` (state.cpp lines 1601-1657). The physical
pointer comparisons (`!toCompare`, `this == toCompare.get()`) have no value
semantics and are not modelled. The `NormalizeState` pre-pass (lines
1617-1626) divides by a square root, which ℚ cannot express; the model
returns `none` when either side has `doNormalize` set and theorems settle
the claim where the source skips that pre-pass. -/
def sumSqrDiff (e o : QEngineCPU) : Option ℚ :=
  if e.qubitCount ≠ o.qubitCount then some 1
  else if e.doNormalize || o.doNormalize then none
  else match e.stateVec, o.stateVec with
  | none, none => some 0
  | none, some _ => some ((updateRunningNorm o REAL1_DEFAULT_ARG).runningNorm)
  | some _, none => some ((updateRunningNorm e REAL1_DEFAULT_ARG).runningNorm)
  | some sv, some ov =>
    let totInner := Finset.sum (Finset.range e.maxQPowerOcl) fun i =>
      Cq.conj (sv i) * ov i
    some (1 - clampProb (Cq.normSq totInner))

/-! ### QCircuitGate (qcircuit.hpp, src/unnamed/part_000 lines 29-301) -/

/-- Symbolic circuit gate: target qubit, payload map from control
permutation to 2x2 matrix, and control set. A swap gate has no payloads and
its single control denotes the second swapped qubit. -/
structure QCircuitGate where
  target : ℕ
  payloads : List (ℕ × Mtrx2)
  controls : Finset ℕ
deriving DecidableEq

/-- C++ `QCircuitGate::IsSwap()`: empty payloads. -/
def QCircuitGate.isSwap (g : QCircuitGate) : Bool := g.payloads.isEmpty

/-- C++ `QCircuitGate::IsPhase()` (part_000 lines 210-223): not a swap, and
every payload has both off-diagonal entries at or below the floor. -/
def QCircuitGate.isPhase (g : QCircuitGate) : Bool :=
  !g.payloads.isEmpty &&
    g.payloads.all fun pl =>
      decide (Cq.normSq pl.2.m1 ≤ FP_NORM_EPSILON) &&
        decide (Cq.normSq pl.2.m2 ≤ FP_NORM_EPSILON)

/-- C++ `QCircuitGate::CanCombine` (part_000 lines 86-115). On a swap gate
the source returns `false` unconditionally: the swap-with-swap branch
(lines 92-95) is commented out. Otherwise: same target, same control-set
size, and every control of `other` among this gate's controls. -/
def QCircuitGate.canCombine (g h : QCircuitGate) : Bool :=
  if g.isSwap then false
  else if g.target ≠ h.target then false
  else if g.controls.card ≠ h.controls.card then false
  else decide (h.controls ⊆ g.controls)

/-- C++ `QCircuitGate::CanPass` (part_000 lines 251-270). -/
def QCircuitGate.canPass (g h : QCircuitGate) : Bool :=
  if g.target ∈ h.controls then
    if !g.isPhase then false
    else if h.target ∈ g.controls then h.isPhase
    else true
  else if h.target ∈ g.controls then h.isPhase
  else decide (g.target ≠ h.target) || (g.isPhase && h.isPhase)

/-- The commutation rule as the spec words it: every shared role is
phase-like — a gate whose target sits in the other's controls must be a
phase gate, and equal targets demand that both gates be phase gates. -/
def specCanPass (g h : QCircuitGate) : Prop :=
  (g.target ∈ h.controls → g.isPhase = true) ∧
  (h.target ∈ g.controls → h.isPhase = true) ∧
  (g.target = h.target → g.isPhase = true ∧ h.isPhase = true)

/-- The combination rule as the spec words it: same target and same control
set, except that a swap gate combines only with another swap gate on the
same index pair (the pair being the target together with the single
control, in the fixed order the `Swap` constructor uses). -/
def specCanCombine (g h : QCircuitGate) : Bool :=
  if g.isSwap || h.isSwap then
    g.isSwap && h.isSwap && (g.target == h.target) && decide (g.controls = h.controls)
  else (g.target == h.target) && decide (g.controls = h.controls)

/-! ### Concrete fixtures for counterexamples and witnesses -/

/-- Two-qubit test buffer: amplitude 3/5 + (4/5)i at index 2, zero elsewhere. -/
def svUnit2 : ℕ → Cq := fun i => if i = 2 then ⟨3 / 5, 4 / 5⟩ else 0

/-- One-qubit buffer holding amplitude 1 at index 0. -/
def svOne : ℕ → Cq := fun i => if i = 0 then 1 else 0

/-- One-qubit engine in the zero-amplitude state with a known running norm. -/
def engZero1 : QEngineCPU :=
  { qubitCount := 1, stateVec := none, runningNorm := 0,
    doNormalize := false, randGlobalPhase := false, amplitudeFloor := 0 }

/-- One-qubit allocated engine with pending normalization (runningNorm 4). -/
def engNorm4 : QEngineCPU :=
  { qubitCount := 1, stateVec := some svOne, runningNorm := 4,
    doNormalize := true, randGlobalPhase := false, amplitudeFloor := 0 }

/-- One-qubit allocated engine with runningNorm 1 and no normalization. -/
def engPlain1 : QEngineCPU :=
  { qubitCount := 1, stateVec := some svOne, runningNorm := 1,
    doNormalize := false, randGlobalPhase := false, amplitudeFloor := 0 }

/-- Two-qubit allocated engine over `svUnit2`. -/
def engPlain2 : QEngineCPU :=
  { qubitCount := 2, stateVec := some svUnit2, runningNorm := 1,
    doNormalize := false, randGlobalPhase := false, amplitudeFloor := 0 }

/-- Diagonal matrix diag(2, 2): both off-diagonal entries exactly zero. -/
def mDiag2 : Mtrx2 := ⟨⟨2, 0⟩, 0, 0, ⟨2, 0⟩⟩

/-- Matrix whose upper-right entry is tiny but nonzero (norm 2^-46, at the
`IS_NORM_0` floor) while the lower-left entry is zero. -/
def mNearDiag : Mtrx2 := ⟨1, ⟨1 / 2 ^ 23, 0⟩, 0, 1⟩

/-- The Pauli X matrix. -/
def mPauliX : Mtrx2 := ⟨0, 1, 1, 0⟩

/-- Swap gate on qubits 0 and 1, as the `Swap` constructor builds it. -/
def gateSwap01 : QCircuitGate := ⟨0, [], {1}⟩

/-- A phase gate: Z on qubit 0, no controls. -/
def gateZ0 : QCircuitGate := ⟨0, [(0, ⟨1, 0, 0, ⟨-1, 0⟩⟩)], ∅⟩

/-- CNOT with control 0 and target 1 (payload X at control pattern 1). -/
def gateCNOT01 : QCircuitGate := ⟨1, [(1, mPauliX)], {0}⟩

/-- An X gate on qubit 1 controlled by qubit 2. -/
def gateCX21 : QCircuitGate := ⟨1, [(1, mPauliX)], {2}⟩

/-- Diagonal matrix with exactly zero off-diagonal entries. -/
def mDiagExact : Mtrx2 := ⟨⟨2, 1⟩, 0, 0, ⟨3, 4⟩⟩

/-- Anti-diagonal matrix with exactly zero diagonal entries. -/
def mAntiDiagExact : Mtrx2 := ⟨0, ⟨2, 1⟩, ⟨3, 4⟩, 0⟩

/-- One-qubit buffer holding amplitude 1 at index 1. -/
def svOneAt1 : ℕ → Cq := fun i => if i = 1 then 1 else 0

/-- One-qubit allocated engine over `svOneAt1`, no normalization. -/
def engFlip1 : QEngineCPU :=
  { qubitCount := 1, stateVec := some svOneAt1, runningNorm := 1,
    doNormalize := false, randGlobalPhase := false, amplitudeFloor := 0 }

/-- Adjacent-duplicate detection over the `qPowsSorted` list, as the claim
words the precondition (state.cpp lines 528-531 reject exactly this). -/
def hasAdjacentDup : List ℕ → Bool
  | [] => false
  | [_] => false
  | a :: b :: t => a == b || hasAdjacentDup (b :: t)

/-! ## Helper lemmas -/

theorem cq_normSq_nonneg (a : Cq) : 0 ≤ Cq.normSq a := by
  have h1 : 0 ≤ a.re * a.re := mul_self_nonneg _
  have h2 : 0 ≤ a.im * a.im := mul_self_nonneg _
  unfold Cq.normSq
  linarith

theorem cq_normSq_zero : Cq.normSq 0 = 0 := by
  with_unfolding_all decide

theorem cq_normSq_one : Cq.normSq 1 = 1 := by
  with_unfolding_all decide

theorem cq_normSq_divR (a : Cq) (c : ℚ) :
    Cq.normSq (Cq.divR a c) = Cq.normSq a / (c * c) := by
  unfold Cq.normSq Cq.divR
  simp only
  field_simp

theorem is_norm_0_zero : IS_NORM_0 0 = true := by
  with_unfolding_all decide

/-- The validation loop errors on any out-of-bounds or adjacent-duplicate
entry, whatever the carried previous element is. -/
theorem checkQPows_err (maxQ : ℕ) :
    ∀ (l : List ℕ) (prev : Option ℕ),
      ((∃ p ∈ l, maxQ ≤ p) ∨ (∃ q, prev = some q ∧ l.head? = some q)
        ∨ hasAdjacentDup l = true) →
      ∃ er, checkQPows maxQ l prev = .error er := by
  intro l
  induction l with
  | nil =>
    intro prev hbad
    simp [hasAdjacentDup] at hbad
  | cons a t ih =>
    intro prev hbad
    by_cases ha : maxQ ≤ a
    · exact ⟨.qPowOutOfBounds, by simp [checkQPows, ha]⟩
    · by_cases hprev : prev = some a
      · exact ⟨.duplicateQPow, by simp [checkQPows, ha, hprev]⟩
      · have hrec : (∃ p ∈ t, maxQ ≤ p) ∨ (∃ q, some a = some q ∧ t.head? = some q)
            ∨ hasAdjacentDup t = true := by
          rcases hbad with ⟨p, hp, hple⟩ | ⟨q, hq, hhd⟩ | hdup
          · rcases List.mem_cons.mp hp with rfl | hpt
            · exact absurd hple ha
            · exact Or.inl ⟨p, hpt, hple⟩
          · rw [List.head?_cons, Option.some.injEq] at hhd
            exact absurd (hq.trans (by rw [hhd])) hprev
          · cases t with
            | nil => simp [hasAdjacentDup] at hdup
            | cons b t2 =>
              have hsplit : a = b ∨ hasAdjacentDup (b :: t2) = true := by
                simpa [hasAdjacentDup] using hdup
              rcases hsplit with hab | hrest
              · exact Or.inr (Or.inl ⟨b, by rw [hab], rfl⟩)
              · exact Or.inr (Or.inr hrest)
        obtain ⟨er, her⟩ := ih (some a) hrec
        exact ⟨er, by simp [checkQPows, ha, hprev, her]⟩

/-! ## C1: kernel specialization versus the generic multiply -/

/-- C1, counterexample: a matrix whose upper-right entry has norm at the
`IS_NORM_0` floor (2^-46) but is nonzero satisfies the claim's diagonal-
classification condition, yet the diagonal kernel that Apply2x2 then selects
writes a different amplitude than the generic multiply would (the dropped
`M[0][1]*a2` term is small but not zero). -/
theorem apply2x2_kernel_eps_cex :
    Cq.normSq mNearDiag.m1 ≤ FP_NORM_EPSILON
    ∧ Cq.normSq mNearDiag.m2 ≤ FP_NORM_EPSILON
    ∧ apply2x2Select mNearDiag 0 1 ≠ apply2x2FnGeneric mNearDiag 0 1
    ∧ apply2x2FnDiag mNearDiag 0 1 ≠ apply2x2FnGeneric mNearDiag 0 1 := by
  with_unfolding_all decide

/-- C1, amended: the specialized kernels agree with the generic full
matrix-vector multiply at every iterated amplitude pair when the suppressed
entries are exactly zero — diagonal kernel for `M[0][1] = M[1][0] = 0`
(then also the selected kernel is the diagonal one), anti-diagonal kernel
for `M[0][0] = M[1][1] = 0` (the selection picks it whenever the diagonal
test fails); with merely `|entry|^2 <= eps` the kernels differ. -/
theorem apply2x2_kernel_exact_equiv (m : Mtrx2) (a1 a2 : Cq) :
    (m.m1 = 0 → m.m2 = 0 →
      apply2x2FnDiag m a1 a2 = apply2x2FnGeneric m a1 a2
      ∧ apply2x2Select m a1 a2 = apply2x2FnGeneric m a1 a2)
    ∧ (m.m0 = 0 → m.m3 = 0 →
      apply2x2FnAntiDiag m a1 a2 = apply2x2FnGeneric m a1 a2)
    ∧ (m.m0 = 0 → m.m3 = 0 → (IS_NORM_0 m.m1 && IS_NORM_0 m.m2) = false →
      apply2x2Select m a1 a2 = apply2x2FnGeneric m a1 a2) := by
  refine ⟨fun h1 h2 => ?_, fun h0 h3 => ?_, fun h0 h3 hsel => ?_⟩
  · have hd : apply2x2FnDiag m a1 a2 = apply2x2FnGeneric m a1 a2 := by
      unfold apply2x2FnDiag apply2x2FnGeneric
      rw [h1, h2]
      simp
    refine ⟨hd, ?_⟩
    unfold apply2x2Select
    rw [h1, h2, is_norm_0_zero]
    simpa using hd
  · unfold apply2x2FnAntiDiag apply2x2FnGeneric
    rw [h0, h3]
    simp
  · unfold apply2x2Select apply2x2FnDiag apply2x2FnAntiDiag apply2x2FnGeneric
    rw [hsel, h0, h3, is_norm_0_zero]
    simp

/-- C1, witness: the amended equivalence evaluated at exactly-diagonal and
exactly-anti-diagonal matrices and a concrete amplitude pair. -/
theorem apply2x2_kernel_exact_equiv_witness :
    apply2x2Select mDiagExact ⟨1, 2⟩ ⟨3, 4⟩ = apply2x2FnGeneric mDiagExact ⟨1, 2⟩ ⟨3, 4⟩
    ∧ apply2x2FnAntiDiag mAntiDiagExact ⟨1, 2⟩ ⟨3, 4⟩
        = apply2x2FnGeneric mAntiDiagExact ⟨1, 2⟩ ⟨3, 4⟩ := by
  refine ⟨((apply2x2_kernel_exact_equiv mDiagExact ⟨1, 2⟩ ⟨3, 4⟩).1 rfl rfl).2, ?_⟩
  exact (apply2x2_kernel_exact_equiv mAntiDiagExact ⟨1, 2⟩ ⟨3, 4⟩).2.1 rfl rfl

/-! ## C3: argument validation of Apply2x2 -/

/-- C3, counterexample: in the zero-amplitude state `Apply2x2` returns
immediately (`CHECK_ZERO_SKIP`, state.cpp line 516, sits before the
validation at lines 518-532), so an out-of-bounds offset produces no
invalid-argument error there, contrary to the claim's "including the
zero-amplitude state". -/
theorem apply2x2_zero_state_skips_validation_cex :
    engZero1.maxQPowerOcl ≤ 5
    ∧ apply2x2 engZero1 5 0 mPauliX [] false 0 1 = .ok engZero1 := by
  constructor
  · with_unfolding_all decide
  · with_unfolding_all rfl

/-- C3, amended: on an engine whose state vector is allocated, a call to
`Apply2x2` whose offsets lie outside `2^N`, or whose `qPowsSorted` holds an
out-of-bounds entry or two equal adjacent entries, fails with an
invalid-argument error, synchronously and with no state mutation (the
error is returned before anything is written); in the zero-amplitude state
the call instead returns at once, unchanged and without validation. -/
theorem apply2x2_invalid_args_error (e : QEngineCPU) (sv : ℕ → Cq)
    (offset1 offset2 : ℕ) (m : Mtrx2) (qp : List ℕ) (dcn : Bool) (nt s : ℚ)
    (hsv : e.stateVec = some sv)
    (hbad : e.maxQPowerOcl ≤ offset1 ∨ e.maxQPowerOcl ≤ offset2
      ∨ (∃ p ∈ qp, e.maxQPowerOcl ≤ p) ∨ hasAdjacentDup qp = true) :
    ∃ er, apply2x2 e offset1 offset2 m qp dcn nt s = .error er := by
  unfold apply2x2
  rw [hsv]
  by_cases hoff : e.maxQPowerOcl ≤ offset1 ∨ e.maxQPowerOcl ≤ offset2
  · exact ⟨.invalidOffsets, by simp [hoff]⟩
  · have hqpbad : (∃ p ∈ qp, e.maxQPowerOcl ≤ p) ∨ hasAdjacentDup qp = true := by
      rcases hbad with h | h | h | h
      · exact absurd (Or.inl h) hoff
      · exact absurd (Or.inr h) hoff
      · exact Or.inl h
      · exact Or.inr h
    obtain ⟨er, her⟩ := checkQPows_err e.maxQPowerOcl qp none
      (by rcases hqpbad with h | h
          · exact Or.inl h
          · exact Or.inr (Or.inr h))
    exact ⟨er, by simp [hoff, her]⟩

/-- C3, witness: an allocated one-qubit engine rejects offset 5. -/
theorem apply2x2_invalid_args_error_witness :
    ∃ er, apply2x2 engPlain1 5 0 mPauliX [] false 0 1 = .error er :=
  apply2x2_invalid_args_error engPlain1 svOne 5 0 mPauliX [] false 0 1 rfl
    (Or.inl (by with_unfolding_all decide))

/-! ## C8: CanPass commutation rule -/

/-- C8: for well-formed gates (no gate controls its own target),
`CanPass` returns true exactly when every shared role is phase-like: a gate
whose target lies in the other's controls must be a phase gate, and equal
targets require both gates to be phase gates; gates sharing no role always
pass. -/
theorem canPass_iff_phase_overlap (g h : QCircuitGate)
    (hg : g.target ∉ g.controls) (hh : h.target ∉ h.controls) :
    QCircuitGate.canPass g h = true ↔ specCanPass g h := by
  unfold QCircuitGate.canPass specCanPass
  by_cases h1 : g.target ∈ h.controls <;> by_cases h2 : h.target ∈ g.controls
  · have hne : g.target ≠ h.target := fun he => hh (he ▸ h1)
    cases hp : g.isPhase <;> cases hq : h.isPhase <;> simp [h1, h2, hp, hq, hne, hg, hh]
  · have hne : g.target ≠ h.target := fun he => hh (he ▸ h1)
    cases hp : g.isPhase <;> simp [h1, h2, hp, hne, hg, hh]
  · have hne : g.target ≠ h.target := fun he => hg (he ▸ h2)
    cases hq : h.isPhase <;> simp [h1, h2, hq, hne, hg, hh]
  · by_cases ht : g.target = h.target
    · cases hp : g.isPhase <;> cases hq : h.isPhase <;> simp [h1, h2, hp, hq, ht, hg, hh]
    · simp [h1, h2, ht, hg, hh]

/-- C8, witness: a Z phase gate on qubit 0 commutes past a CNOT controlled
on qubit 0, per both the code and the spec's rule. -/
theorem canPass_iff_phase_overlap_witness :
    (QCircuitGate.canPass gateZ0 gateCNOT01 = true ↔ specCanPass gateZ0 gateCNOT01)
    ∧ QCircuitGate.canPass gateZ0 gateCNOT01 = true :=
  ⟨canPass_iff_phase_overlap gateZ0 gateCNOT01 (by with_unfolding_all decide)
      (by with_unfolding_all decide),
   by with_unfolding_all decide⟩

/-! ## C9: CanCombine rule -/

/-- C9, counterexample: two identical swap gates satisfy the claim's
special case ("a swap gate combines with another swap gate on the same
index pair"), but the source's `CanCombine` returns false on any swap gate:
the swap-with-swap branch is commented out (part_000 lines 92-97). -/
theorem canCombine_swap_cex :
    specCanCombine gateSwap01 gateSwap01 = true
    ∧ QCircuitGate.canCombine gateSwap01 gateSwap01 = false := by
  with_unfolding_all decide

/-- C9, amended: `g.CanCombine(h)` returns true exactly when `g` is not a
swap gate and `g` and `h` share the same target and the same control set;
a swap gate combines with nothing (the swap-with-swap special case is
disabled in the source). -/
theorem canCombine_characterization (g h : QCircuitGate) :
    QCircuitGate.canCombine g h = true ↔
      g.isSwap = false ∧ g.target = h.target ∧ g.controls = h.controls := by
  unfold QCircuitGate.canCombine
  by_cases hs : g.isSwap
  · simp [hs]
  · by_cases ht : g.target = h.target
    · by_cases hcard : g.controls.card = h.controls.card
      · simp only [hs, ht, hcard]
        simp only [Bool.not_eq_true] at hs
        simp [hs, decide_eq_true_eq]
        constructor
        · intro hsub
          exact (Finset.eq_of_subset_of_card_le hsub hcard.le).symm
        · intro hc
          simp [hc]
      · constructor
        · intro hcc
          simp [hs, ht, hcard] at hcc
        · rintro ⟨-, -, hc⟩
          exact absurd (hc ▸ rfl) hcard
    · constructor
      · intro hcc
        simp [hs, ht] at hcc
      · rintro ⟨-, hc, -⟩
        exact absurd hc ht

/-- C9, witness for the amended characterization: two equal controlled-X
gates combine; the swap gate does not combine with itself. -/
theorem canCombine_characterization_witness :
    QCircuitGate.canCombine gateCX21 gateCX21 = true
    ∧ QCircuitGate.canCombine gateSwap01 gateSwap01 = false := by
  constructor
  · exact (canCombine_characterization gateCX21 gateCX21).mpr
      ⟨by with_unfolding_all decide, rfl, rfl⟩
  · have h := canCombine_characterization gateSwap01 gateSwap01
    by_cases hc : QCircuitGate.canCombine gateSwap01 gateSwap01 = true
    · exact absurd (h.mp hc).1 (by with_unfolding_all decide)
    · exact Bool.not_eq_true _ ▸ hc

/-! ## C10: SetAmplitude reads the buffer before the null check -/

/-- C10: on the zero-amplitude state with a known (non-sentinel) running
norm and a nonzero amplitude, `SetAmplitude` evaluates
`stateVec->read(perm)` (state.cpp line 211) before the `!stateVec`
allocation check (line 214): the embedded read of the unallocated buffer is
the explicit `nullRead` marker, where the C++ dereferences a null pointer.
The claim that the read happens only on allocated storage is right as
intent and violated by the code. -/
theorem setAmplitude_null_read_bug :
    setAmplitude engZero1 0 1 = .error .nullRead
    ∧ engZero1.stateVec = none
    ∧ engZero1.runningNorm ≠ REAL1_DEFAULT_ARG
    ∧ Cq.normSq 1 ≠ 0
    ∧ ¬ engZero1.maxQPowerOcl ≤ 0 := by
  refine ⟨?_, rfl, by with_unfolding_all decide, by with_unfolding_all decide,
    by with_unfolding_all decide⟩
  with_unfolding_all rfl

/-! ## C2: normalization folding policy of Apply2x2 -/

/-- C2, counterexample: a single-held-bit call with `doNormalize` set and
`runningNorm = 4 > 0` but `doCalcNorm = false` selects the kernels without
the `nrm` factor (state.cpp lines 561-579): the written amplitude is the
unscaled `M[0][0] * a` (here 2), not `1/sqrt(runningNorm)` times it, even
though `runningNorm` is still reset to 1. -/
theorem apply2x2_norm_fold_cex :
    engNorm4.doNormalize = true
    ∧ (0 : ℚ) < engNorm4.runningNorm
    ∧ (2 : ℚ) * 2 = engNorm4.runningNorm
    ∧ resRead (apply2x2 engNorm4 0 1 mDiag2 [1] false 0 2) 0 = some ⟨2, 0⟩
    ∧ resRunningNorm (apply2x2 engNorm4 0 1 mDiag2 [1] false 0 2) = some 1
    ∧ Cq.smul (1 / 2) ⟨2, 0⟩ ≠ (⟨2, 0⟩ : Cq) := by
  refine ⟨rfl, by with_unfolding_all decide, by with_unfolding_all decide, ?_, ?_,
    by with_unfolding_all decide⟩
  · with_unfolding_all rfl
  · with_unfolding_all rfl

/-- C2, amended: with exactly one held bit, `doNormalize` set and
`runningNorm > 0` (so `doApplyNorm` holds and the pending factor is
`1/sqrt(runningNorm)`, here `1/s` with `s * s = runningNorm`), the scale is
folded into the multiply only when the caller also requests norm
recomputation (`doCalcNorm`) and the factor is not within `REAL1_EPSILON`
of one — then every written amplitude is the `1/s`-scaled selected multiply
(floored when the amplitude floor is positive); when `doCalcNorm` is false
no scale is folded, yet `runningNorm` is still reset to 1; and with more
than one held bit or `runningNorm <= 0` the factor is 1, so no scale is
ever applied. -/
theorem apply2x2_norm_fold_policy (e : QEngineCPU) (sv : ℕ → Cq) (m : Mtrx2)
    (qp : List ℕ) (offset1 offset2 : ℕ) (dcn : Bool) (nt s : ℚ)
    (hsv : e.stateVec = some sv)
    (hoff : ¬(e.maxQPowerOcl ≤ offset1 ∨ e.maxQPowerOcl ≤ offset2))
    (hqp : checkQPows e.maxQPowerOcl qp none = .ok ())
    (hbc : qp.length = 1)
    (hdn : e.doNormalize = true)
    (hrn : 0 < e.runningNorm)
    (hs : s * s = e.runningNorm) (hs0 : 0 < s) :
    apply2x2DoApplyNorm e qp.length = true
    ∧ apply2x2NrmVal e qp.length s = 1 / s
    ∧ (REAL1_EPSILON < |1 - 1 / s| →
        ∀ nt2 a1 a2, (apply2x2Kernel m true (apply2x2NrmVal e qp.length s) nt2 a1 a2).1
          = threshPair nt2 (scalePair (1 / s) (apply2x2Select m a1 a2)))
    ∧ (∀ nrm2 nt2 a1 a2,
        (apply2x2Kernel m false nrm2 nt2 a1 a2).1 = apply2x2Select m a1 a2)
    ∧ (dcn = false → resRunningNorm (apply2x2 e offset1 offset2 m qp dcn nt s) = some 1)
    ∧ (∀ (e2 : QEngineCPU) (bc2 : ℕ) (s2 : ℚ), bc2 ≠ 1 ∨ e2.runningNorm ≤ 0 →
        apply2x2NrmVal e2 bc2 s2 = 1)
    ∧ (∀ (dcn2 : Bool) (nt2 : ℚ) (a1 a2 : Cq), (apply2x2Kernel m dcn2 1 nt2 a1 a2).1
        = if dcn2 then threshPair nt2 (apply2x2Select m a1 a2)
          else apply2x2Select m a1 a2) := by
  have h1 : apply2x2DoApplyNorm e qp.length = true := by
    simp [apply2x2DoApplyNorm, hbc, hdn, hrn]
  have h2 : apply2x2NrmVal e qp.length s = 1 / s := by
    simp [apply2x2NrmVal, h1]
  have habs1 : ¬(REAL1_EPSILON < (0 : ℚ)) := by norm_num [REAL1_EPSILON]
  refine ⟨h1, h2, ?_, ?_, ?_, ?_, ?_⟩
  · intro heps nt2 a1 a2
    rw [h2]
    rw [one_div] at heps
    by_cases hnt : 0 < nt2
    · simp [apply2x2Kernel, hnt, heps, threshPair]
    · simp [apply2x2Kernel, hnt, heps, threshPair]
  · intro nrm2 nt2 a1 a2
    simp [apply2x2Kernel]
  · intro hdcn
    subst hdcn
    simp [apply2x2, hsv, hoff, hqp, resRunningNorm, h1]
  · intro e2 bc2 s2 hc
    rcases hc with hbc2 | hrn2
    · simp [apply2x2NrmVal, apply2x2DoApplyNorm, hbc2]
    · have hnot : ¬(0 < e2.runningNorm) := not_lt.mpr hrn2
      simp [apply2x2NrmVal, apply2x2DoApplyNorm, hnot]
  · intro dcn2 nt2 a1 a2
    cases dcn2 with
    | false => simp [apply2x2Kernel]
    | true =>
      by_cases hnt : 0 < nt2
      · simp [apply2x2Kernel, hnt, habs1, threshPair]
      · simp [apply2x2Kernel, hnt, habs1, threshPair]

/-- C2, witness: the policy at a concrete one-qubit engine with
`runningNorm = 4`, `sqrt(runningNorm) = 2`: the flag holds, the factor is
1/2, and the `doCalcNorm = false` call resets `runningNorm` to 1. -/
theorem apply2x2_norm_fold_policy_witness :
    apply2x2DoApplyNorm engNorm4 1 = true
    ∧ apply2x2NrmVal engNorm4 1 2 = 1 / 2
    ∧ resRunningNorm (apply2x2 engNorm4 0 1 mDiag2 [1] false 0 2) = some 1 := by
  have h := apply2x2_norm_fold_policy engNorm4 svOne mDiag2 [1] 0 1 false 0 2 rfl
    (by with_unfolding_all decide) (by with_unfolding_all rfl) rfl rfl
    (by with_unfolding_all decide) (by with_unfolding_all decide)
    (by with_unfolding_all decide)
  exact ⟨h.1, h.2.1, h.2.2.2.2.1 rfl⟩

/-! ## C4: SetPermutation produces a unit basis state -/

/-- C4: for `p < 2^N` and a nonzero phase argument (`absPhaseFac` is
`abs(phaseFac)`, positive with `absPhaseFac^2 = |phaseFac|^2`), after
`SetPermutation(p, phaseFac)` the amplitude at `p` has squared magnitude 1
(the normalized explicit phase, or the random global phase of unit norm, or
exactly 1), every other amplitude is 0, `runningNorm = 1`, and the squared
magnitudes over the whole buffer sum to exactly 1. -/
theorem setPermutation_unit_state (e : QEngineCPU) (perm : ℕ)
    (phaseFac : Option Cq) (absPF : ℚ) (randPhase : Cq)
    (hperm : perm < e.maxQPowerOcl)
    (hrand : Cq.normSq randPhase = 1)
    (habs : ∀ pf, phaseFac = some pf → absPF * absPF = Cq.normSq pf ∧ 0 < absPF) :
    Cq.normSq (readAmp (setPermutation e perm phaseFac absPF randPhase) perm) = 1
    ∧ (∀ i, i ≠ perm → readAmp (setPermutation e perm phaseFac absPF randPhase) i = 0)
    ∧ (setPermutation e perm phaseFac absPF randPhase).runningNorm = 1
    ∧ Finset.sum (Finset.range e.maxQPowerOcl)
        (fun i => Cq.normSq (readAmp (setPermutation e perm phaseFac absPF randPhase) i))
      = 1 := by
  have key : ∃ phase, setPermutation e perm phaseFac absPF randPhase
      = { e with stateVec := some (write (fun _ => 0) perm phase), runningNorm := 1 }
      ∧ Cq.normSq phase = 1 := by
    cases phaseFac with
    | none =>
      refine ⟨if e.randGlobalPhase then randPhase else 1, rfl, ?_⟩
      by_cases hrg : e.randGlobalPhase
      · simp [hrg, hrand]
      · simp [hrg, cq_normSq_one]
    | some pf =>
      obtain ⟨ha2, hapos⟩ := habs pf rfl
      refine ⟨Cq.divR pf absPF, rfl, ?_⟩
      rw [cq_normSq_divR, ← ha2]
      exact div_self (by positivity)
  obtain ⟨phase, heq, hph⟩ := key
  rw [heq]
  refine ⟨?_, ?_, rfl, ?_⟩
  · simp [readAmp, write, hph]
  · intro i hi
    simp [readAmp, write, hi]
  · rw [Finset.sum_eq_single_of_mem perm (Finset.mem_range.mpr hperm)]
    · simp [readAmp, write, hph]
    · intro b _ hb
      simp [readAmp, write, hb, cq_normSq_zero]

/-- C4, witness: on a two-qubit engine, `SetPermutation(2, 3 + 4i)` (with
`abs(3 + 4i) = 5`) leaves a unit amplitude at index 2, zero elsewhere,
`runningNorm = 1`, and total squared magnitude 1. -/
theorem setPermutation_unit_state_witness :
    Cq.normSq (readAmp (setPermutation engPlain2 2 (some ⟨3, 4⟩) 5 1) 2) = 1
    ∧ readAmp (setPermutation engPlain2 2 (some ⟨3, 4⟩) 5 1) 1 = 0
    ∧ (setPermutation engPlain2 2 (some ⟨3, 4⟩) 5 1).runningNorm = 1
    ∧ Finset.sum (Finset.range engPlain2.maxQPowerOcl)
        (fun i => Cq.normSq (readAmp (setPermutation engPlain2 2 (some ⟨3, 4⟩) 5 1) i))
      = 1 := by
  have h := setPermutation_unit_state engPlain2 2 (some ⟨3, 4⟩) 5 1
    (by with_unfolding_all decide) (by with_unfolding_all decide)
    (fun pf hpf => by
      cases hpf
      exact ⟨by with_unfolding_all decide, by with_unfolding_all decide⟩)
  exact ⟨h.1, h.2.1 1 (by decide), h.2.2.1, h.2.2.2⟩

/-! ## C7: SumSqrDiff formula -/

/-- Clamping before or after the complement agree on values that start
nonnegative: `1 - clampProb x = clampProb (1 - x)` for `0 ≤ x`. -/
theorem clampProb_one_sub (x : ℚ) (hx : 0 ≤ x) :
    1 - clampProb x = clampProb (1 - x) := by
  unfold clampProb
  split_ifs <;> linarith

/-- C7: with the normalization pre-pass inactive (`doNormalize` unset on
both engines, where the source skips `NormalizeState`), `SumSqrDiff`
returns 1 on mismatched qubit counts; 0 when both sides are in the
zero-amplitude state; the other side's (freshly updated) running norm when
exactly one side is in the zero-amplitude state — the floored norm sum, or
0 after collapse; and otherwise `1 - |<psi|phi>|^2`, equal to the clamp of
`1 - |inner|^2` into [0, 1]. -/
theorem sumSqrDiff_formula (e o : QEngineCPU)
    (hde : e.doNormalize = false) (hdo : o.doNormalize = false) :
    (e.qubitCount ≠ o.qubitCount → sumSqrDiff e o = some 1)
    ∧ (e.qubitCount = o.qubitCount → e.stateVec = none → o.stateVec = none →
        sumSqrDiff e o = some 0)
    ∧ (∀ ov, e.qubitCount = o.qubitCount → e.stateVec = none → o.stateVec = some ov →
        sumSqrDiff e o = some ((updateRunningNorm o REAL1_DEFAULT_ARG).runningNorm)
        ∧ (updateRunningNorm o REAL1_DEFAULT_ARG).runningNorm
            = (if parNorm o.maxQPowerOcl ov o.amplitudeFloor ≤ FP_NORM_EPSILON then 0
               else parNorm o.maxQPowerOcl ov o.amplitudeFloor))
    ∧ (∀ sv, e.qubitCount = o.qubitCount → e.stateVec = some sv → o.stateVec = none →
        sumSqrDiff e o = some ((updateRunningNorm e REAL1_DEFAULT_ARG).runningNorm))
    ∧ (∀ sv ov, e.qubitCount = o.qubitCount → e.stateVec = some sv → o.stateVec = some ov →
        sumSqrDiff e o = some (clampProb (1 - Cq.normSq (Finset.sum
          (Finset.range e.maxQPowerOcl) fun i => Cq.conj (sv i) * ov i)))) := by
  have hsent : REAL1_DEFAULT_ARG < (0 : ℚ) := by norm_num [REAL1_DEFAULT_ARG]
  refine ⟨?_, ?_, ?_, ?_, ?_⟩
  · intro hqc
    simp [sumSqrDiff, hqc]
  · intro hqc he ho2
    simp [sumSqrDiff, hqc, hde, hdo, he, ho2]
  · intro ov hqc he ho2
    constructor
    · simp [sumSqrDiff, hqc, hde, hdo, he, ho2]
    · simp only [updateRunningNorm, ho2, if_pos hsent]
      split_ifs with hcol
      · simp [zeroAmplitudes]
      · rfl
  · intro sv hqc he ho2
    simp [sumSqrDiff, hqc, hde, hdo, he, ho2]
  · intro sv ov hqc he ho2
    have hx := cq_normSq_nonneg (Finset.sum (Finset.range e.maxQPowerOcl)
      fun i => Cq.conj (sv i) * ov i)
    simp only [sumSqrDiff, hqc, hde, hdo, he, ho2]
    rw [← clampProb_one_sub _ hx]
    simp [hqc]

/-- C7, witness: two orthogonal one-qubit states give squared difference 1
through the formula, and mismatched qubit counts give 1. -/
theorem sumSqrDiff_formula_witness :
    sumSqrDiff engPlain1 engFlip1 = some (clampProb (1 - Cq.normSq (Finset.sum
      (Finset.range engPlain1.maxQPowerOcl) fun i => Cq.conj (svOne i) * svOneAt1 i)))
    ∧ sumSqrDiff engPlain1 engFlip1 = some 1
    ∧ sumSqrDiff engPlain1 engPlain2 = some 1 := by
  refine ⟨(sumSqrDiff_formula engPlain1 engFlip1 rfl rfl).2.2.2.2 svOne svOneAt1 rfl rfl rfl,
    ?_, (sumSqrDiff_formula engPlain1 engPlain2 rfl rfl).1 (by decide)⟩
  with_unfolding_all decide

/-! ## Bit-level helper lemmas -/

theorem nat_testBit_high {x n j : ℕ} (hx : x < 2 ^ n) (hj : n ≤ j) :
    x.testBit j = false :=
  Nat.testBit_lt_two_pow (lt_of_lt_of_le hx (Nat.pow_le_pow_right (by norm_num) hj))

/-- Splitting an index below `2^n` into its mask part and its complement
part recovers the index: `(lcv AND mask) OR (lcv AND NOT mask) = lcv`. -/
theorem nat_land_lor_compl (n lcv mask : ℕ) (hl : lcv < 2 ^ n) :
    (lcv &&& mask) ||| (lcv &&& ((2 ^ n - 1) ^^^ mask)) = lcv := by
  apply Nat.eq_of_testBit_eq
  intro j
  simp only [Nat.testBit_or, Nat.testBit_and, Nat.testBit_xor, Nat.testBit_two_pow_sub_one]
  by_cases hj : j < n
  · cases hmb : mask.testBit j <;> cases hlv : lcv.testBit j <;> simp [hj, hmb, hlv]
  · have hl0 : lcv.testBit j = false := nat_testBit_high hl (le_of_not_lt hj)
    simp [hj, hl0]

/-- Flipping the mask part and recombining yields the xor:
`((lcv AND mask) XOR mask) OR (lcv AND NOT mask) = lcv XOR mask`. -/
theorem nat_land_xor_lor_compl (n lcv mask : ℕ) (hl : lcv < 2 ^ n)
    (hm : mask < 2 ^ n) :
    ((lcv &&& mask) ^^^ mask) ||| (lcv &&& ((2 ^ n - 1) ^^^ mask)) = lcv ^^^ mask := by
  apply Nat.eq_of_testBit_eq
  intro j
  simp only [Nat.testBit_or, Nat.testBit_and, Nat.testBit_xor, Nat.testBit_two_pow_sub_one]
  by_cases hj : j < n
  · cases hmb : mask.testBit j <;> cases hlv : lcv.testBit j <;> simp [hj, hmb, hlv]
  · have hl0 : lcv.testBit j = false := nat_testBit_high hl (le_of_not_lt hj)
    have hm0 : mask.testBit j = false := nat_testBit_high hm (le_of_not_lt hj)
    simp [hj, hl0, hm0]

theorem nat_xor_land_self (x m : ℕ) : (x ^^^ m) &&& m = (x &&& m) ^^^ m := by
  apply Nat.eq_of_testBit_eq
  intro j
  simp only [Nat.testBit_and, Nat.testBit_xor]
  cases x.testBit j <;> cases m.testBit j <;> simp

theorem nat_xor_cancel_right (a m : ℕ) : (a ^^^ m) ^^^ m = a := by
  simp [Nat.xor_assoc]

theorem nat_ne_xor_of_ne_zero {a m : ℕ} (hm : m ≠ 0) : a ≠ a ^^^ m := by
  intro h
  have h2 : (0 : ℕ) = m := by
    simpa [← Nat.xor_assoc] using congrArg (fun t => a ^^^ t) h
  exact hm h2.symm

theorem nat_twoMul_land_twoMulAddOne (k j : ℕ) :
    (2 * k) &&& (2 * j + 1) = 2 * (k &&& j) := by
  apply Nat.eq_of_testBit_eq
  intro i
  cases i with
  | zero => simp [Nat.testBit_and, Nat.testBit_zero, Nat.mul_mod_right]
  | succ i =>
    have e1 : 2 * k / 2 = k := by omega
    have e2 : (2 * j + 1) / 2 = j := by omega
    simp [Nat.testBit_and, Nat.testBit_succ, Nat.and_div_two, e1, e2]

theorem nat_twoMulAddOne_land_twoMul (j : ℕ) : (2 * j + 1) &&& (2 * j) = 2 * j := by
  apply Nat.eq_of_testBit_eq
  intro i
  cases i with
  | zero => simp [Nat.testBit_and, Nat.testBit_zero, Nat.mul_mod_right]
  | succ i =>
    have e1 : (2 * j + 1) / 2 = j := by omega
    have e2 : 2 * j / 2 = j := by omega
    simp [Nat.testBit_and, Nat.testBit_succ, Nat.and_div_two, e1, e2]

/-- A nonzero number with `m AND (m - 1) = 0` is a power of two. -/
theorem land_pred_eq_zero_pow : ∀ m : ℕ, m ≠ 0 → m &&& (m - 1) = 0 → ∃ b, m = 2 ^ b := by
  intro m
  induction m using Nat.strong_induction_on with
  | _ m ih =>
    intro h0 h
    rcases Nat.mod_two_eq_zero_or_one m with h2 | h2
    · obtain ⟨k, rfl⟩ : ∃ k, m = 2 * k := ⟨m / 2, by omega⟩
      have hk0 : k ≠ 0 := by omega
      have hm1 : 2 * k - 1 = 2 * (k - 1) + 1 := by omega
      rw [hm1, nat_twoMul_land_twoMulAddOne] at h
      obtain ⟨b, hb⟩ := ih k (by omega) hk0 (by omega)
      exact ⟨b + 1, by rw [hb]; ring⟩
    · obtain ⟨j, rfl⟩ : ∃ j, m = 2 * j + 1 := ⟨m / 2, by omega⟩
      by_cases hj0 : j = 0
      · exact ⟨0, by omega⟩
      · exfalso
        have hm1 : 2 * j + 1 - 1 = 2 * j := by omega
        rw [hm1, nat_twoMulAddOne_land_twoMul] at h
        omega

theorem pow_two_land_pred (b : ℕ) : (2 ^ b) &&& (2 ^ b - 1) = 0 := by
  rw [Nat.and_pow_two_sub_one_eq_mod]
  exact Nat.mod_self _

theorem isPowerOfTwo_pow (b : ℕ) : isPowerOfTwo (2 ^ b) = true := by
  have h0 : (2 : ℕ) ^ b ≠ 0 := by positivity
  simp [isPowerOfTwo, h0, pow_two_land_pred]

theorem nat_log2_two_pow (b : ℕ) : Nat.log2 (2 ^ b) = b := by
  induction b with
  | zero => simp [Nat.log2]
  | succ b ih =>
    rw [Nat.log2]
    have h2 : (2 : ℕ) ≤ 2 ^ (b + 1) := by
      calc (2 : ℕ) = 2 ^ 1 := by norm_num
      _ ≤ 2 ^ (b + 1) := Nat.pow_le_pow_right (by norm_num) (by omega)
    have hdiv : 2 ^ (b + 1) / 2 = 2 ^ b := by
      rw [pow_succ]
      exact Nat.mul_div_cancel _ (by norm_num)
    simp [h2, hdiv, ih]

/-- A number the source's `isPowerOfTwo` accepts equals `2 ^ log2`. -/
theorem isPowerOfTwo_spec (m : ℕ) (h : isPowerOfTwo m = true) :
    m = 2 ^ Nat.log2 m := by
  simp only [isPowerOfTwo, Bool.and_eq_true, bne_iff_ne, ne_eq, beq_iff_eq] at h
  obtain ⟨b, hb⟩ := land_pred_eq_zero_pow m h.1 h.2
  rw [hb, nat_log2_two_pow]

/-! ## C5: XMask exchanges amplitude pairs across the mask -/

theorem xMaskStep_skip (maxQ mask : ℕ) (sv : ℕ → Cq) (lcv : ℕ)
    (h : (lcv &&& mask) < ((lcv &&& mask) ^^^ mask)) :
    xMaskStep maxQ mask sv lcv = sv := by
  simp [xMaskStep, h]

theorem xMaskStep_apply (n mask : ℕ) (sv : ℕ → Cq) (lcv : ℕ)
    (hl : lcv < 2 ^ n) (hm : mask < 2 ^ n)
    (h : ¬((lcv &&& mask) < ((lcv &&& mask) ^^^ mask))) :
    xMaskStep (2 ^ n) mask sv lcv
      = fun i => if i = lcv ^^^ mask then sv lcv
          else if i = lcv then sv (lcv ^^^ mask) else sv i := by
  simp only [xMaskStep]
  rw [if_neg h]
  rw [nat_land_lor_compl n lcv mask hl, nat_land_xor_lor_compl n lcv mask hl hm]

/-- Positions a list of iterations never writes keep their value through the
`XMask` fold: every listed iteration either skips (its mask part is below
its complement) or touches neither `pos` nor its partner. -/
theorem xMask_foldl_untouched (n mask : ℕ) (hm : mask < 2 ^ n) (L : List ℕ) :
    ∀ (sv : ℕ → Cq) (pos : ℕ),
      (∀ lcv ∈ L, (lcv &&& mask) < ((lcv &&& mask) ^^^ mask)
        ∨ (lcv < 2 ^ n ∧ lcv ≠ pos ∧ lcv ^^^ mask ≠ pos)) →
      L.foldl (xMaskStep (2 ^ n) mask) sv pos = sv pos := by
  induction L with
  | nil => intro sv pos _; rfl
  | cons a t ih =>
    intro sv pos hcond
    rw [List.foldl_cons]
    have hstep : xMaskStep (2 ^ n) mask sv a pos = sv pos := by
      rcases hcond a (List.mem_cons_self a t) with hskip | ⟨ha, hne1, hne2⟩
      · rw [xMaskStep_skip _ _ _ _ hskip]
      · by_cases hskip : (a &&& mask) < ((a &&& mask) ^^^ mask)
        · rw [xMaskStep_skip _ _ _ _ hskip]
        · rw [xMaskStep_apply n mask sv a ha hm hskip]
          simp [Ne.symm hne1, Ne.symm hne2]
    rw [ih (xMaskStep (2 ^ n) mask sv a) pos
      (fun l hl => hcond l (List.mem_cons_of_mem a hl))]
    exact hstep

/-- The full `XMask` fold swaps the pair `(h, h XOR mask)` when `h` is the
active element of the pair (its mask part at or above the complement). -/
theorem xMask_foldl_swap (n mask : ℕ) (hm0 : mask ≠ 0) (hm : mask < 2 ^ n)
    (sv : ℕ → Cq) (h : ℕ) (hh : h < 2 ^ n)
    (hact : ¬((h &&& mask) < ((h &&& mask) ^^^ mask))) :
    (List.range (2 ^ n)).foldl (xMaskStep (2 ^ n) mask) sv h = sv (h ^^^ mask)
    ∧ (List.range (2 ^ n)).foldl (xMaskStep (2 ^ n) mask) sv (h ^^^ mask) = sv h := by
  have hp : h ^^^ mask < 2 ^ n := Nat.xor_lt_two_pow hh hm
  have hhp : h ≠ h ^^^ mask := nat_ne_xor_of_ne_zero hm0
  have hsne : (h &&& mask) ≠ ((h &&& mask) ^^^ mask) := nat_ne_xor_of_ne_zero hm0
  have hpskip : ((h ^^^ mask) &&& mask) < (((h ^^^ mask) &&& mask) ^^^ mask) := by
    rw [nat_xor_land_self, nat_xor_cancel_right]
    omega
  have hxcancel : ∀ a : ℕ, (a ^^^ mask) ^^^ mask = a := fun a => nat_xor_cancel_right a mask
  have hsplit : List.range (2 ^ n)
      = List.range' 0 h ++ h :: List.range' (h + 1) (2 ^ n - (h + 1)) := by
    rw [List.range_eq_range']
    have h2 := List.range'_append_1 0 (h + 1) (2 ^ n - (h + 1))
    rw [Nat.zero_add] at h2
    rw [(by omega : 2 ^ n - (h + 1) + (h + 1) = 2 ^ n)] at h2
    rw [← h2, List.range'_1_concat, Nat.zero_add]
    simp
  have hAcond : ∀ pos : ℕ, pos = h ∨ pos = h ^^^ mask →
      ∀ lcv ∈ List.range' 0 h, (lcv &&& mask) < ((lcv &&& mask) ^^^ mask)
        ∨ (lcv < 2 ^ n ∧ lcv ≠ pos ∧ lcv ^^^ mask ≠ pos) := by
    intro pos hpos lcv hl
    have hlh : lcv < h := by
      have := List.mem_range'_1.mp hl
      omega
    by_cases hlp : lcv = h ^^^ mask
    · left
      rw [hlp]
      exact hpskip
    · right
      refine ⟨lt_trans hlh hh, ?_, ?_⟩
      · rcases hpos with rfl | rfl
        · exact Nat.ne_of_lt hlh
        · exact hlp
      · rcases hpos with rfl | rfl
        · intro hc
          exact hlp (by rw [← hc, hxcancel])
        · intro hc
          have : lcv = h := by
            have := congrArg (fun t => t ^^^ mask) hc
            simpa [hxcancel] using this
          exact Nat.ne_of_lt hlh this
  have hBcond : ∀ pos : ℕ, pos = h ∨ pos = h ^^^ mask →
      ∀ lcv ∈ List.range' (h + 1) (2 ^ n - (h + 1)),
        (lcv &&& mask) < ((lcv &&& mask) ^^^ mask)
        ∨ (lcv < 2 ^ n ∧ lcv ≠ pos ∧ lcv ^^^ mask ≠ pos) := by
    intro pos hpos lcv hl
    have hlh : h < lcv ∧ lcv < 2 ^ n := by
      have := List.mem_range'_1.mp hl
      omega
    by_cases hlp : lcv = h ^^^ mask
    · left
      rw [hlp]
      exact hpskip
    · right
      refine ⟨hlh.2, ?_, ?_⟩
      · rcases hpos with rfl | rfl
        · exact (Nat.ne_of_lt hlh.1).symm
        · exact hlp
      · rcases hpos with rfl | rfl
        · intro hc
          exact hlp (by rw [← hc, hxcancel])
        · intro hc
          have hlcv : lcv = h := by
            have := congrArg (fun t => t ^^^ mask) hc
            simpa [hxcancel] using this
          exact (Nat.ne_of_lt hlh.1).symm hlcv
  have hsvA_h : List.foldl (xMaskStep (2 ^ n) mask) sv (List.range' 0 h) h = sv h :=
    xMask_foldl_untouched n mask hm (List.range' 0 h) sv h (hAcond h (Or.inl rfl))
  have hsvA_p : List.foldl (xMaskStep (2 ^ n) mask) sv (List.range' 0 h) (h ^^^ mask)
      = sv (h ^^^ mask) :=
    xMask_foldl_untouched n mask hm (List.range' 0 h) sv (h ^^^ mask) (hAcond _ (Or.inr rfl))
  have hstep := xMaskStep_apply n mask
    (List.foldl (xMaskStep (2 ^ n) mask) sv (List.range' 0 h)) h hh hm hact
  constructor
  · rw [hsplit, List.foldl_append, List.foldl_cons]
    rw [xMask_foldl_untouched n mask hm _ _ h (hBcond h (Or.inl rfl))]
    simp only [hstep, if_neg hhp, if_pos rfl]
    exact hsvA_p
  · rw [hsplit, List.foldl_append, List.foldl_cons]
    rw [xMask_foldl_untouched n mask hm _ _ (h ^^^ mask) (hBcond _ (Or.inr rfl))]
    simp only [hstep, if_pos rfl]
    exact hsvA_h

/-- Pointwise characterization of the `XMask` fold: every index below `2^n`
moves to its partner across the mask. -/
theorem xMask_foldl_char (n mask : ℕ) (hm0 : mask ≠ 0) (hm : mask < 2 ^ n)
    (sv : ℕ → Cq) (i : ℕ) (hi : i < 2 ^ n) :
    (List.range (2 ^ n)).foldl (xMaskStep (2 ^ n) mask) sv i = sv (i ^^^ mask) := by
  by_cases hcase : (i &&& mask) < ((i &&& mask) ^^^ mask)
  · have hj : i ^^^ mask < 2 ^ n := Nat.xor_lt_two_pow hi hm
    have hjact : ¬(((i ^^^ mask) &&& mask) < (((i ^^^ mask) &&& mask) ^^^ mask)) := by
      rw [nat_xor_land_self, nat_xor_cancel_right]
      omega
    have h2 := (xMask_foldl_swap n mask hm0 hm sv (i ^^^ mask) hj hjact).2
    rwa [nat_xor_cancel_right] at h2
  · exact (xMask_foldl_swap n mask hm0 hm sv i hi hcase).1

theorem engine_eta (e : QEngineCPU) (sv : ℕ → Cq) (hsv : e.stateVec = some sv) :
    ({ e with stateVec := some sv } : QEngineCPU) = e := by
  rw [← hsv]

/-- C5: on an allocated state with `mask < 2^N`, for each `lcv` with mask
part `s`, complement-within-mask `r = s XOR mask`, and untouched part
`other = lcv AND NOT mask`, when `s >= r` the operation exchanges the
amplitudes at `s OR other` and `r OR other`; and a single-bit mask
delegates to the single-qubit X gate on that bit (whose action obeys the
same exchange description). -/
theorem xMask_exchange (e : QEngineCPU) (sv : ℕ → Cq) (mask : ℕ)
    (hsv : e.stateVec = some sv) (hm : mask < 2 ^ e.qubitCount) :
    (∀ lcv, lcv < 2 ^ e.qubitCount →
      ((lcv &&& mask) ^^^ mask) ≤ (lcv &&& mask) →
      resRead (xMask e mask)
          ((lcv &&& mask) ||| (lcv &&& ((2 ^ e.qubitCount - 1) ^^^ mask)))
        = some (sv (((lcv &&& mask) ^^^ mask)
            ||| (lcv &&& ((2 ^ e.qubitCount - 1) ^^^ mask))))
      ∧ resRead (xMask e mask)
          (((lcv &&& mask) ^^^ mask) ||| (lcv &&& ((2 ^ e.qubitCount - 1) ^^^ mask)))
        = some (sv ((lcv &&& mask) ||| (lcv &&& ((2 ^ e.qubitCount - 1) ^^^ mask)))))
    ∧ (∀ b, mask = 2 ^ b → xMask e mask = .ok (xGate e b)) := by
  have hchar : ∀ i, i < 2 ^ e.qubitCount →
      resRead (xMask e mask) i = some (sv (i ^^^ mask)) := by
    intro i hi
    by_cases hm0 : mask = 0
    · subst hm0
      simp [xMask, QEngineCPU.maxQPowerOcl, hsv, not_le.mpr hm, resRead, readAmp]
    · by_cases hpow : isPowerOfTwo mask
      · have hmask_eq := isPowerOfTwo_spec mask hpow
        simp only [xMask, QEngineCPU.maxQPowerOcl, hsv, if_neg (not_le.mpr hm),
          if_neg hm0, if_pos hpow, resRead, readAmp, xGate]
        rw [← hmask_eq]
      · simp only [xMask, QEngineCPU.maxQPowerOcl, hsv, if_neg (not_le.mpr hm),
          if_neg hm0, if_neg hpow, resRead, readAmp, Option.some.injEq]
        exact xMask_foldl_char e.qubitCount mask hm0 hm sv i hi
  constructor
  · intro lcv hlcv hge
    have h1 := nat_land_lor_compl e.qubitCount lcv mask hlcv
    have h2 := nat_land_xor_lor_compl e.qubitCount lcv mask hlcv hm
    rw [h1, h2]
    refine ⟨hchar lcv hlcv, ?_⟩
    have h3 := hchar (lcv ^^^ mask) (Nat.xor_lt_two_pow hlcv hm)
    rwa [nat_xor_cancel_right] at h3
  · intro b hb
    subst hb
    have hb0 : ¬((2 : ℕ) ^ b = 0) := by positivity
    simp [xMask, QEngineCPU.maxQPowerOcl, hsv, not_le.mpr hm, hb0,
      isPowerOfTwo_pow b, nat_log2_two_pow]

/-- C5, witness: masking qubits 1 and 2 of a two-qubit engine exchanges the
amplitudes of the pair `(2, 1)` (the mask is `0b11`, not a single bit). -/
theorem xMask_exchange_witness :
    resRead (xMask engPlain2 3)
        ((2 &&& 3) ||| (2 &&& ((2 ^ engPlain2.qubitCount - 1) ^^^ 3)))
      = some (svUnit2 (((2 &&& 3) ^^^ 3) ||| (2 &&& ((2 ^ engPlain2.qubitCount - 1) ^^^ 3))))
    ∧ resRead (xMask engPlain2 3)
        (((2 &&& 3) ^^^ 3) ||| (2 &&& ((2 ^ engPlain2.qubitCount - 1) ^^^ 3)))
      = some (svUnit2 ((2 &&& 3) ||| (2 &&& ((2 ^ engPlain2.qubitCount - 1) ^^^ 3)))) :=
  (xMask_exchange engPlain2 svUnit2 3 rfl (by decide)).1 2 (by decide) (by decide)

/-! ## C6: PhaseRootNMask multiplies by root-of-unity powers -/

theorem popCountAux_zero_arg (fuel : ℕ) : popCountAux fuel 0 = 0 := by
  cases fuel <;> simp [popCountAux]

theorem popCountOcl_zero : popCountOcl 0 = 0 := rfl

theorem popCountAux_two_pow : ∀ b fuel, 2 ^ b ≤ fuel → popCountAux fuel (2 ^ b) = 1 := by
  intro b
  induction b with
  | zero =>
    intro fuel hf
    cases fuel with
    | zero => omega
    | succ f => norm_num [popCountAux, popCountAux_zero_arg]
  | succ b ih =>
    intro fuel hf
    have hpos : 0 < (2 : ℕ) ^ (b + 1) := by positivity
    cases fuel with
    | zero => omega
    | succ f =>
      have hne : ¬((2 : ℕ) ^ (b + 1) = 0) := by positivity
      have hmod : (2 : ℕ) ^ (b + 1) % 2 = 0 := by
        rw [pow_succ]
        exact Nat.mul_mod_left _ 2
      have hdiv : (2 : ℕ) ^ (b + 1) / 2 = 2 ^ b := by
        rw [pow_succ]
        exact Nat.mul_div_cancel _ two_pos
      have hle : 2 ^ b ≤ f := by
        have h1 : (2 : ℕ) ^ (b + 1) = 2 * 2 ^ b := by ring
        have hp : 0 < (2 : ℕ) ^ b := by positivity
        omega
      show (if 2 ^ (b + 1) = 0 then 0
        else 2 ^ (b + 1) % 2 + popCountAux f (2 ^ (b + 1) / 2)) = 1
      rw [if_neg hne, hmod, hdiv, ih f hle]

theorem popCountOcl_two_pow (b : ℕ) : popCountOcl (2 ^ b) = 1 :=
  popCountAux_two_pow b (2 ^ b) le_rfl

theorem nat_land_pow_two (x b : ℕ) :
    x &&& 2 ^ b = if x.testBit b then 2 ^ b else 0 := by
  apply Nat.eq_of_testBit_eq
  intro j
  by_cases hj : j = b
  · subst hj
    cases hx : x.testBit j <;> simp [Nat.testBit_and, hx, Nat.testBit_two_pow_self]
  · have h2 : (2 ^ b).testBit j = false :=
      Nat.testBit_two_pow_of_ne (fun he => hj he.symm)
    cases hx : x.testBit b <;> simp [Nat.testBit_and, h2, hx, Nat.zero_testBit]

/-- Powers of a root of unity only depend on the exponent mod the order. -/
theorem cq_pow_mod_eq (z : Cq) (n k : ℕ) (hz : z ^ n = 1) (hn : n ≠ 0) :
    z ^ (k % n) = z ^ k := by
  conv_rhs => rw [← Nat.div_add_mod k n]
  rw [pow_add, pow_mul, hz, one_pow, one_mul]

/-- Single-application characterization of `PhaseRootNMask`: it returns the
same engine with every amplitude multiplied by `prnMult`. -/
theorem phaseRootNMask_char (e : QEngineCPU) (sv : ℕ → Cq) (n mask : ℕ) (z : Cq)
    (hsv : e.stateVec = some sv) (hm : mask < 2 ^ e.qubitCount) :
    ∃ sv2, phaseRootNMask e n mask z = .ok { e with stateVec := some sv2 }
      ∧ ∀ lcv, sv2 lcv = prnMult n mask lcv z * sv lcv := by
  have heta := engine_eta e sv hsv
  by_cases h0 : n = 0 ∨ mask = 0
  · refine ⟨sv, ?_, ?_⟩
    · simp [phaseRootNMask, QEngineCPU.maxQPowerOcl, hsv, not_le.mpr hm, h0, heta]
    · intro lcv
      rcases h0 with h0 | h0
      · subst h0
        simp [prnMult, Nat.mod_one]
      · subst h0
        by_cases hn1 : n = 1 <;> simp [prnMult, hn1, popCountOcl_zero]
  · push_neg at h0
    by_cases hn1 : n = 1
    · subst hn1
      refine ⟨fun lcv => (-1 : Cq) ^ popCountOcl (lcv &&& mask) * sv lcv, ?_, fun lcv => rfl⟩
      simp [phaseRootNMask, QEngineCPU.maxQPowerOcl, hsv, not_le.mpr hm, h0.2, zMask]
    · have hn2 : 2 ≤ n := by omega
      have h1n : (1 : ℕ) < 2 ^ n := by
        have h2 : (2 : ℕ) ^ 1 ≤ 2 ^ n := Nat.pow_le_pow_right (by norm_num) (by omega)
        omega
      by_cases hpow : isPowerOfTwo mask
      · have hmask_eq := isPowerOfTwo_spec mask hpow
        refine ⟨fun i => (if i &&& 2 ^ Nat.log2 mask = 0 then (1 : Cq) else z) * sv i,
          ?_, ?_⟩
        · simp [phaseRootNMask, QEngineCPU.maxQPowerOcl, hsv, not_le.mpr hm,
            h0.1, h0.2, hn1, hpow, phaseGate]
        · intro lcv
          simp only [prnMult, if_neg hn1]
          congr 1
          conv_rhs => rw [hmask_eq]
          rw [nat_land_pow_two]
          by_cases hbit : lcv.testBit (Nat.log2 mask)
          · have hb0 : ¬((2 : ℕ) ^ Nat.log2 mask = 0) := by positivity
            simp [hbit, hb0, popCountOcl_two_pow, Nat.mod_eq_of_lt h1n]
          · simp [hbit, popCountOcl_zero]
      · refine ⟨fun lcv =>
          if popCountOcl (lcv &&& mask) % 2 ^ n ≠ 0
          then z ^ (popCountOcl (lcv &&& mask) % 2 ^ n) * sv lcv else sv lcv, ?_, ?_⟩
        · simp [phaseRootNMask, QEngineCPU.maxQPowerOcl, hsv, not_le.mpr hm,
            h0.1, h0.2, hn1, hpow]
        · intro lcv
          simp only [prnMult, if_neg hn1]
          by_cases hst : popCountOcl (lcv &&& mask) % 2 ^ n = 0
          · simp [hst]
          · simp [hst]

/-- Iterated characterization: `k` applications multiply each amplitude by
`prnMult ^ k`. -/
theorem phaseRootNIter_char (e : QEngineCPU) (sv : ℕ → Cq) (n mask : ℕ) (z : Cq)
    (hsv : e.stateVec = some sv) (hm : mask < 2 ^ e.qubitCount) :
    ∀ k, ∃ sv2, phaseRootNIter n mask z k e = .ok { e with stateVec := some sv2 }
      ∧ ∀ lcv, sv2 lcv = (prnMult n mask lcv z) ^ k * sv lcv := by
  intro k
  induction k with
  | zero =>
    refine ⟨sv, ?_, fun lcv => by simp⟩
    simp [phaseRootNIter, engine_eta e sv hsv]
  | succ k ih =>
    obtain ⟨svk, hek, hvk⟩ := ih
    have hchar := phaseRootNMask_char { e with stateVec := some svk } svk n mask z rfl hm
    obtain ⟨sv2, heq, hv2⟩ := hchar
    refine ⟨sv2, ?_, ?_⟩
    · show (match phaseRootNIter n mask z k e with
        | .ok e2 => phaseRootNMask e2 n mask z
        | .error er => .error er) = _
      rw [hek]
      exact heq
    · intro lcv
      rw [hv2 lcv, hvk lcv]
      ring

/-- C6: on an allocated state with `mask < 2^N`, with `z` standing for the
unit phase `e^(-i*pi/2^(n-1))` (characterized by `z^(2^n) = 1`): a single
application of `PhaseRootNMask(n, mask)` multiplies the amplitude at `lcv`
by `z^(popcount(lcv AND mask) mod 2^n)`, which equals the claim's
`z^popcount(lcv AND mask)`; `n = 1` reduces to `ZMask`; and `2^n`
successive applications restore every amplitude exactly. -/
theorem phaseRootNMask_phase (e : QEngineCPU) (sv : ℕ → Cq) (n mask : ℕ) (z : Cq)
    (hsv : e.stateVec = some sv) (hm : mask < 2 ^ e.qubitCount)
    (hz : z ^ 2 ^ n = 1) :
    (2 ≤ n → ∀ lcv,
      resRead (phaseRootNMask e n mask z) lcv
        = some (z ^ (popCountOcl (lcv &&& mask) % 2 ^ n) * sv lcv)
      ∧ z ^ (popCountOcl (lcv &&& mask) % 2 ^ n) = z ^ popCountOcl (lcv &&& mask))
    ∧ (n = 1 → phaseRootNMask e n mask z = .ok (zMask e mask))
    ∧ (1 ≤ n → ∀ lcv,
        resRead (phaseRootNIter n mask z (2 ^ n) e) lcv = some (sv lcv)) := by
  have hpow0 : (2 : ℕ) ^ n ≠ 0 := by positivity
  refine ⟨?_, ?_, ?_⟩
  · intro hn2 lcv
    obtain ⟨sv2, heq, hval⟩ := phaseRootNMask_char e sv n mask z hsv hm
    have hn1 : n ≠ 1 := by omega
    constructor
    · rw [heq]
      simp only [resRead, readAmp]
      rw [hval lcv]
      simp [prnMult, hn1]
    · exact cq_pow_mod_eq z (2 ^ n) _ hz hpow0
  · intro hn1
    subst hn1
    by_cases hm0 : mask = 0
    · subst hm0
      have hzm : zMask e 0 = e := by
        simp only [zMask, hsv]
        have hfun : (fun lcv => (-1 : Cq) ^ popCountOcl (lcv &&& 0) * sv lcv) = sv := by
          funext lcv
          simp [popCountOcl_zero]
        rw [hfun]
        exact engine_eta e sv hsv
      rw [hzm]
      simp [phaseRootNMask, QEngineCPU.maxQPowerOcl, hsv, not_le.mpr hm]
    · simp [phaseRootNMask, QEngineCPU.maxQPowerOcl, hsv, not_le.mpr hm, hm0]
  · intro _ lcv
    obtain ⟨sv2, heq, hval⟩ := phaseRootNIter_char e sv n mask z hsv hm (2 ^ n)
    rw [heq]
    simp only [resRead, readAmp]
    rw [hval lcv]
    have hmult : (prnMult n mask lcv z) ^ 2 ^ n = 1 := by
      by_cases hn1 : n = 1
      · subst hn1
        have hred : prnMult 1 mask lcv z = (-1 : Cq) ^ popCountOcl (lcv &&& mask) := by
          simp [prnMult]
        rw [hred, pow_right_comm, (by norm_num : (2 : ℕ) ^ 1 = 2), neg_one_sq, one_pow]
      · have hred : prnMult n mask lcv z
            = z ^ (popCountOcl (lcv &&& mask) % 2 ^ n) := by
          simp [prnMult, hn1]
        rw [hred, ← pow_mul, mul_comm, pow_mul, hz, one_pow]
    rw [hmult, one_mul]

/-- C6, witness: on a two-qubit engine with `z = -i` (a primitive 4th root of
unity, `n = 2`), masking both qubits phases the `|11>` amplitude by
`z^popcount(3) = z^2`, and four successive applications are the identity. -/
theorem phaseRootNMask_phase_witness :
    resRead (phaseRootNMask engPlain2 2 3 (Cq.mk 0 (-1))) 3
      = some ((Cq.mk 0 (-1)) ^ (popCountOcl (3 &&& 3) % 2 ^ 2) * svUnit2 3)
    ∧ (Cq.mk 0 (-1)) ^ (popCountOcl (3 &&& 3) % 2 ^ 2)
      = (Cq.mk 0 (-1)) ^ popCountOcl (3 &&& 3)
    ∧ resRead (phaseRootNIter 2 3 (Cq.mk 0 (-1)) (2 ^ 2) engPlain2) 2
      = some (svUnit2 2) := by
  have h := phaseRootNMask_phase engPlain2 svUnit2 2 3 (Cq.mk 0 (-1)) rfl
    (by decide) (by with_unfolding_all decide)
  exact ⟨(h.1 (by omega) 3).1, (h.1 (by omega) 3).2, h.2.2 (by omega) 2⟩

end Qrack
